import Mathlib

/-!
# Calamares job queue: `JobThread` and `JobQueue`

A shallow embedding of `src/libcalamares/JobQueue.cpp`.

* `qreal` is modelled by the exact rationals `ℚ`; the `int` module weight by `Int`
  (it is only ever converted to `qreal`), the `int` job index by `Nat` (it only counts up
  from zero to the length of the list).
* A `Job` is an external collaborator.  It is modelled by the values its accessors return;
  `exec` is the result its run operation returns.  Progress signals a job raises on its own
  while it executes are outside the model.
* `QMetaObject::invokeMethod( m_queue, ..., Qt::QueuedConnection )` is modelled by appending
  to an event list that the queue consumes in order once the run is over.  The call
  `jobitem.job->exec()` is recorded in the same list, so the list shows which jobs were
  invoked and when.
* `Q_ASSERT` is modelled by `Option`: a violated assertion yields `none`.  The statements
  behind the assertion of `finalize` are `JobThread.finalizeBody`.
-/

namespace Calamares

/-! ## Definitions -/

/-- Models `JobResult`: `ok` is its `operator bool`. -/
structure JobResult where
  ok : Bool
  message : String
  details : String
deriving DecidableEq

/-- Models the `Job` interface as far as `JobQueue.cpp` uses it. -/
structure Job where
  prettyName : String
  prettyStatusMessage : String
  getJobWeight : ℚ
  isEmergency : Bool
  exec : JobResult
deriving DecidableEq

/-- Models `struct WeightedJob`. -/
structure WeightedJob where
  cumulative : ℚ := 0
  weight : ℚ := 0
  job : Job
deriving DecidableEq

abbrev WeightedJobList := List WeightedJob

abbrev JobList := List Job

/-- What the job thread does that is visible from outside, in the order it happens:
the three queued invocations on the queue (`progress`, `failed`, `finish`) and the
invocation of a job (`exec`, with the value of `m_jobIndex` at that moment). -/
inductive Event where
  | progress (fraction : ℚ) (message : String)
  | exec (index : Nat) (job : Job)
  | failed (message : String) (details : String)
  | finish
deriving DecidableEq

/-- Models the data members of `class JobThread`. -/
structure JobThread where
  m_runningJobs : WeightedJobList := []
  m_queuedJobs : WeightedJobList := []
  m_jobIndex : Nat := 0
  m_overallQueueWeight : ℚ := 0
deriving DecidableEq

/-- The expression `l->isEmpty() ? 0.0 : ( l->last().cumulative + l->last().weight )`
used by both `finalize` and `enqueue`. -/
def lastSpan (l : WeightedJobList) : ℚ :=
  match l.getLast? with
  | none => 0
  | some w => w.cumulative + w.weight

/-- Statements of `JobThread::finalize` after its assertion (lines 74-82). -/
def JobThread.finalizeBody (t : JobThread) : JobThread :=
  let m_runningJobs := t.m_queuedJobs
  let m_queuedJobs := t.m_runningJobs
  let m_overallQueueWeight := lastSpan m_runningJobs
  let m_overallQueueWeight := if m_overallQueueWeight < 1 then 1 else m_overallQueueWeight
  { t with m_runningJobs := m_runningJobs, m_queuedJobs := m_queuedJobs,
           m_overallQueueWeight := m_overallQueueWeight }

/-- Models `JobThread::finalize`: `Q_ASSERT( m_runningJobs->isEmpty() )`, then the body. -/
def JobThread.finalize (t : JobThread) : Option JobThread :=
  if t.m_runningJobs.isEmpty then some t.finalizeBody else none

/-- The `std::accumulate` of `enqueue` followed by the clamp `if ( totalJobWeight < 1 )`. -/
def totalJobWeight (jobs : JobList) : ℚ :=
  let totalJobWeight := jobs.foldl (fun total j => total + j.getJobWeight) 0
  if totalJobWeight < 1 then 1 else totalJobWeight

/-- The `for` loop of `enqueue`; the state is `m_queuedJobs` and the local `cumulative`. -/
def enqueueLoop (totalJobWeight : ℚ) (moduleWeight : Int) :
    JobList → WeightedJobList × ℚ → WeightedJobList × ℚ
  | [], st => st
  | j :: rest, (queued, cumulative) =>
    let jobContribution := (j.getJobWeight / totalJobWeight) * (moduleWeight : ℚ)
    enqueueLoop totalJobWeight moduleWeight rest
      (queued ++ [{ cumulative := cumulative, weight := jobContribution, job := j }],
       cumulative + jobContribution)

/-- Models `JobThread::enqueue`. -/
def JobThread.enqueue (t : JobThread) (moduleWeight : Int) (jobs : JobList) : JobThread :=
  let cumulative := lastSpan t.m_queuedJobs
  let total := totalJobWeight jobs
  { t with m_queuedJobs := (enqueueLoop total moduleWeight jobs (t.m_queuedJobs, cumulative)).1 }

/-- Models `JobThread::emitProgress`: the queued `progress` invocation it makes. -/
def JobThread.emitProgress (t : JobThread) (percentage : ℚ) : Event :=
  let percentage := max 0 (min 1 percentage)
  if h : t.m_jobIndex < t.m_runningJobs.length then
    let jobitem := t.m_runningJobs[t.m_jobIndex]
    Event.progress ((jobitem.cumulative + jobitem.weight * percentage) / t.m_overallQueueWeight)
      jobitem.job.prettyStatusMessage
  else
    Event.progress 1 "Done"

/-- The thread together with the locals of `JobThread::run` and the events so far. -/
structure RunState where
  thread : JobThread
  failureEncountered : Bool := false
  message : String := ""
  details : String := ""
  events : List Event := []
deriving DecidableEq

/-- Appends one event to the events of a run. -/
def RunState.emit (s : RunState) (e : Event) : RunState :=
  { s with events := s.events ++ [e] }

/-- A call of `emitProgress` inside `run`: its queued invocation joins the events. -/
def RunState.emitProgress (s : RunState) (percentage : ℚ) : RunState :=
  s.emit (s.thread.emitProgress percentage)

/-- One iteration of the `for` loop of `JobThread::run` (lines 118-140). -/
def runBody (s : RunState) (jobitem : WeightedJob) : RunState :=
  let s :=
    if s.failureEncountered && !jobitem.job.isEmergency then
      s
    else
      let s := s.emitProgress 0
      let s := s.emit (Event.exec s.thread.m_jobIndex jobitem.job)
      let result := jobitem.job.exec
      let s :=
        if !s.failureEncountered && !result.ok then
          { s with failureEncountered := true, message := result.message,
                   details := result.details }
        else
          s
      s.emitProgress 1
  { s with thread := { s.thread with m_jobIndex := s.thread.m_jobIndex + 1 } }

/-- Models `JobThread::run`. -/
def JobThread.run (t : JobThread) : RunState :=
  let s : RunState := { thread := { t with m_jobIndex := 0 } }
  let s := t.m_runningJobs.foldl runBody s
  let s := if s.failureEncountered then s.emit (Event.failed s.message s.details)
           else s.emitProgress 1
  s.emit Event.finish

/-- Signals of `JobQueue` as its observers receive them. -/
inductive Signal where
  | queueChanged (jobs : JobList)
  | progress (fraction : ℚ) (message : String)
  | failed (message : String) (details : String)
  | finished
deriving DecidableEq

/-- Models the data members of `class JobQueue` that `JobQueue.cpp` touches, and the
signals emitted so far. -/
structure JobQueue where
  m_thread : JobThread
  m_finished : Bool
  signals : List Signal
deriving DecidableEq

/-- Models the constructor `JobQueue::JobQueue`: a fresh thread, no signal emitted yet.
The initial value of `m_finished` is set in the class declaration, which is not part of
`JobQueue.cpp`; it is a parameter. -/
def JobQueue.new (finished : Bool) : JobQueue :=
  { m_thread := {}, m_finished := finished, signals := [] }

/-- Models the slot `JobQueue::finish`. -/
def JobQueue.finish (q : JobQueue) : JobQueue :=
  { q with m_finished := true, signals := q.signals ++ [Signal.finished] }

/-- Delivery of one queued invocation to the queue: `progress` and `failed` are signals
of the queue, `finish` is its slot.  A job invocation is not a call on the queue. -/
def JobQueue.deliver (q : JobQueue) : Event → JobQueue
  | Event.progress f m => { q with signals := q.signals ++ [Signal.progress f m] }
  | Event.failed m d => { q with signals := q.signals ++ [Signal.failed m d] }
  | Event.finish => q.finish
  | Event.exec _ _ => q

/-- Models `JobQueue::enqueue`; the thread is not running between calls. -/
def JobQueue.enqueue (q : JobQueue) (moduleWeight : Int) (jobs : JobList) : JobQueue :=
  { q with m_thread := q.m_thread.enqueue moduleWeight jobs,
           signals := q.signals ++ [Signal.queueChanged jobs] }

/-- The job thread runs to completion and the queue consumes the queued invocations. -/
def JobQueue.runThread (q : JobQueue) : JobQueue :=
  let s := q.m_thread.run
  s.events.foldl JobQueue.deliver { q with m_thread := s.thread }

/-- Models `JobQueue::start`, followed by the run of the thread it starts. -/
def JobQueue.start (q : JobQueue) : Option JobQueue :=
  match q.m_thread.finalize with
  | none => none
  | some t => some ({ q with m_thread := t, m_finished := false } : JobQueue).runThread

/-- The job invocations in an event list, in order. -/
def invoked : List Event → List (Nat × Job)
  | [] => []
  | Event.exec i j :: es => (i, j) :: invoked es
  | _ :: es => invoked es

/-- The progress fractions in an event list, in order. -/
def fractions : List Event → List ℚ
  | [] => []
  | Event.progress f _ :: es => f :: fractions es
  | _ :: es => fractions es

/-- The `failed` invocations in an event list, in order. -/
def failures : List Event → List (String × String)
  | [] => []
  | Event.failed m d :: es => (m, d) :: failures es
  | _ :: es => failures es

/-- A batch submission as `JobQueue::enqueue` receives it. -/
abbrev Batch := Int × JobList

/-- Successive calls of `JobThread::enqueue`, one per batch, in order. -/
def JobThread.enqueueAll (t : JobThread) (batches : List Batch) : JobThread :=
  batches.foldl (fun t b => t.enqueue b.1 b.2) t

/-- Sum of the `weight` fields of a list. -/
def weightSum (l : WeightedJobList) : ℚ := (l.map WeightedJob.weight).sum

/-- Sum of the raw job weights of a batch. -/
def rawWeightSum (jobs : JobList) : ℚ := (jobs.map Job.getJobWeight).sum

/-- Entries the loop of `enqueue` appends, as a function of the starting `cumulative`. -/
def appended (total : ℚ) (moduleWeight : Int) : ℚ → JobList → WeightedJobList
  | _, [] => []
  | c, j :: rest =>
    { cumulative := c, weight := (j.getJobWeight / total) * (moduleWeight : ℚ), job := j } ::
      appended total moduleWeight (c + (j.getJobWeight / total) * (moduleWeight : ℚ)) rest

/-- Each `cumulative` is `c` plus the weights before it. -/
def RunningSum : ℚ → WeightedJobList → Prop
  | _, [] => True
  | c, w :: rest => w.cumulative = c ∧ RunningSum (c + w.weight) rest

/-- Every `weight` field is non-negative. -/
def NonnegWeights (l : WeightedJobList) : Prop := ∀ w ∈ l, 0 ≤ w.weight

/-- Events of one invoked job at position `i`. -/
def jobEvents (Q : ℚ) (i : Nat) (w : WeightedJob) : List Event :=
  [Event.progress (w.cumulative / Q) w.job.prettyStatusMessage,
   Event.exec i w.job,
   Event.progress ((w.cumulative + w.weight) / Q) w.job.prettyStatusMessage]

/-- Events of the loop of `run` over a suffix of the list that starts at position `i`,
given the value of `failureEncountered` on entry. -/
def loopEvents (Q : ℚ) : Nat → Bool → WeightedJobList → List Event
  | _, _, [] => []
  | i, failed, w :: rest =>
    if failed && !w.job.isEmergency then loopEvents Q (i + 1) failed rest
    else jobEvents Q i w ++ loopEvents Q (i + 1) (failed || !w.job.exec.ok) rest

/-- First entry of a list whose job fails. -/
def firstFailure (l : WeightedJobList) : Option WeightedJob :=
  l.find? (fun w => !w.job.exec.ok)

/-- The state after the loop of `run` has gone through a suffix `rest`. -/
def afterLoop (s : RunState) (i : Nat) (rest : WeightedJobList) : RunState :=
  { thread := { s.thread with m_jobIndex := i + rest.length },
    failureEncountered := s.failureEncountered || rest.any (fun w => !w.job.exec.ok),
    message := if s.failureEncountered then s.message else
      match firstFailure rest with
      | some w => w.job.exec.message
      | none => s.message,
    details := if s.failureEncountered then s.details else
      match firstFailure rest with
      | some w => w.job.exec.details
      | none => s.details,
    events := s.events ++ loopEvents s.thread.m_overallQueueWeight i s.failureEncountered rest }

/-- Events of `run` after its loop. -/
def finalEvents (l : WeightedJobList) : List Event :=
  match firstFailure l with
  | some w => [Event.failed w.job.exec.message w.job.exec.details, Event.finish]
  | none => [Event.progress 1 "Done", Event.finish]

/-- The jobs of a list paired with their positions, counted from `i`. -/
def indexed : Nat → WeightedJobList → List (Nat × Job)
  | _, [] => []
  | i, w :: rest => (i, w.job) :: indexed (i + 1) rest

/-- Every job up to and including the first one that fails, then the emergency jobs
among the jobs after it; every job when none fails. -/
def specInvokedFrom (i : Nat) (l : WeightedJobList) : List (Nat × Job) :=
  let jobs := indexed i l
  let upToFailure := jobs.takeWhile (fun p => p.2.exec.ok)
  match jobs.dropWhile (fun p => p.2.exec.ok) with
  | [] => upToFailure
  | firstFailing :: after =>
    upToFailure ++ firstFailing :: after.filter (fun p => p.2.isEmergency)

/-- The invoked sequence of a whole active list, positions counted from 0. -/
def specInvoked (l : WeightedJobList) : List (Nat × Job) := specInvokedFrom 0 l

/-- Translation of the events into the signals the observers of the queue receive. -/
def observed : List Event → List Signal
  | [] => []
  | Event.progress f m :: es => Signal.progress f m :: observed es
  | Event.failed m d :: es => Signal.failed m d :: observed es
  | Event.finish :: es => Signal.finished :: observed es
  | Event.exec _ _ :: es => observed es

/-- Whether a signal is `failed`. -/
def Signal.isFailed : Signal → Bool
  | Signal.failed _ _ => true
  | _ => false

/-- Whether a signal is `progress`. -/
def Signal.isProgress : Signal → Bool
  | Signal.progress _ _ => true
  | _ => false

/-- A job described by its weight, its emergency flag, whether it succeeds, and a text used
for its name, its status message and the message of its result; the details of the result
are that text followed by `-details`. -/
def mkJob (w : ℚ) (emergency : Bool) (ok : Bool) (msg : String) : Job :=
  { prettyName := msg, prettyStatusMessage := msg, getJobWeight := w, isEmergency := emergency,
    exec := { ok := ok, message := msg, details := msg ++ "-details" } }

/-- An active list of four jobs of equal share: the second fails, the fourth is an
emergency job. -/
def sampleThread : JobThread :=
  { m_runningJobs :=
      [{ cumulative := 0, weight := 1, job := mkJob 1 false true "a" },
       { cumulative := 1, weight := 1, job := mkJob 1 false false "b" },
       { cumulative := 2, weight := 1, job := mkJob 1 false true "c" },
       { cumulative := 3, weight := 1, job := mkJob 1 true false "d" }],
    m_overallQueueWeight := 4 }

/-- An active list of two jobs that both succeed. -/
def sampleThreadOk : JobThread :=
  { m_runningJobs :=
      [{ cumulative := 0, weight := 1, job := mkJob 1 false true "a" },
       { cumulative := 1, weight := 1, job := mkJob 1 true true "b" }],
    m_overallQueueWeight := 2 }

/-- The thread after one batch of two jobs of weight 1 with module weight 2 has been
enqueued and promoted; the first job fails, the second is not an emergency job. -/
def sampleThreadFailing : JobThread :=
  (({} : JobThread).enqueue 2 [mkJob 1 false false "a", mkJob 1 false true "b"]).finalizeBody

/-- The invariant of a weighted job list: every `cumulative` is the sum of the `weight`
fields before it, and `cumulative` does not decrease along the list. -/
def CumulativeInvariant (l : WeightedJobList) : Prop :=
  (∀ (i : Nat) (hi : i < l.length), l[i].cumulative = weightSum (l.take i))
  ∧ List.Pairwise (fun a b => a ≤ b) (l.map WeightedJob.cumulative)

instance (l : WeightedJobList) : Decidable (NonnegWeights l) := by
  unfold NonnegWeights; infer_instance

instance (l : WeightedJobList) : Decidable (CumulativeInvariant l) := by
  unfold CumulativeInvariant; infer_instance

/-- The batch of the scenario with weights 1, 1, 2; all three jobs succeed. -/
def scenarioJobs : JobList :=
  [mkJob 1 false true "a", mkJob 1 false true "b", mkJob 2 false true "c"]

/-- The thread after `scenarioJobs` has been enqueued with module weight 10 and promoted. -/
def scenarioThread : JobThread := (({} : JobThread).enqueue 10 scenarioJobs).finalizeBody

/-- Two batches with non-negative weights: one with a fractional total, one with a failing
job followed by an emergency job. -/
def sampleBatches : List Batch :=
  [(3, [mkJob (1 / 2) false true "a", mkJob 0 false true "b"]),
   (4, [mkJob 1 false false "c", mkJob 3 true true "d"])]

/-- A queue on which one job is enqueued, the queue is started and the run completes, and
then a second job is enqueued. -/
def rearmedQueue : Option JobQueue :=
  (((JobQueue.new false).enqueue 1 [mkJob 1 false true "a"]).start).map
    (fun q => q.enqueue 1 [mkJob 1 false true "b"])

/-! ## Lemmas -/

lemma enqueueLoop_fst (total : ℚ) (mw : Int) (jobs : JobList) (queued : WeightedJobList)
    (c : ℚ) :
    (enqueueLoop total mw jobs (queued, c)).1 = queued ++ appended total mw c jobs := by
  induction jobs generalizing queued c with
  | nil => simp [enqueueLoop, appended]
  | cons j rest ih => simp [enqueueLoop, appended, ih]

lemma enqueue_queued (t : JobThread) (mw : Int) (jobs : JobList) :
    (t.enqueue mw jobs).m_queuedJobs
      = t.m_queuedJobs ++ appended (totalJobWeight jobs) mw (lastSpan t.m_queuedJobs) jobs := by
  simp [JobThread.enqueue, enqueueLoop_fst]

lemma enqueue_running (t : JobThread) (mw : Int) (jobs : JobList) :
    (t.enqueue mw jobs).m_runningJobs = t.m_runningJobs := rfl

lemma foldl_weight (jobs : JobList) (a : ℚ) :
    jobs.foldl (fun total j => total + j.getJobWeight) a = a + rawWeightSum jobs := by
  induction jobs generalizing a with
  | nil => simp [rawWeightSum]
  | cons j rest ih =>
    simp only [List.foldl_cons, ih, rawWeightSum, List.map_cons, List.sum_cons]
    ring

lemma totalJobWeight_eq (jobs : JobList) :
    totalJobWeight jobs = if rawWeightSum jobs < 1 then 1 else rawWeightSum jobs := by
  simp [totalJobWeight, foldl_weight]

lemma totalJobWeight_ge (jobs : JobList) : 1 ≤ totalJobWeight jobs := by
  rw [totalJobWeight_eq]
  split_ifs with h
  · exact le_refl 1
  · exact not_lt.mp h

lemma weightSum_appended (total : ℚ) (mw : Int) (c : ℚ) (jobs : JobList) :
    weightSum (appended total mw c jobs) = (rawWeightSum jobs / total) * (mw : ℚ) := by
  induction jobs generalizing c with
  | nil => simp [appended, weightSum, rawWeightSum]
  | cons j rest ih =>
    have h := ih (c + (j.getJobWeight / total) * (mw : ℚ))
    simp only [weightSum] at h
    simp only [appended, weightSum, rawWeightSum, List.map_cons, List.sum_cons, h]
    ring

lemma length_appended (total : ℚ) (mw : Int) (c : ℚ) (jobs : JobList) :
    (appended total mw c jobs).length = jobs.length := by
  induction jobs generalizing c with
  | nil => rfl
  | cons j rest ih => simp [appended, ih]

lemma runningSum_appended (total : ℚ) (mw : Int) (c : ℚ) (jobs : JobList) :
    RunningSum c (appended total mw c jobs) := by
  induction jobs generalizing c with
  | nil => trivial
  | cons j rest ih => exact ⟨rfl, ih _⟩

lemma runningSum_append (c : ℚ) (l l2 : WeightedJobList) :
    RunningSum c (l ++ l2) ↔ RunningSum c l ∧ RunningSum (c + weightSum l) l2 := by
  induction l generalizing c with
  | nil => simp [RunningSum, weightSum]
  | cons w rest ih =>
    have h := ih (c + w.weight)
    simp only [weightSum] at h
    show w.cumulative = c ∧ RunningSum (c + w.weight) (rest ++ l2) ↔ _
    simp only [RunningSum, h, weightSum, List.map_cons, List.sum_cons, and_assoc, add_assoc]

lemma lastSpan_cons_cons (a b : WeightedJob) (l : WeightedJobList) :
    lastSpan (a :: b :: l) = lastSpan (b :: l) := by
  simp [lastSpan, List.getLast?_cons_cons]

lemma lastSpan_of_runningSum (c : ℚ) (w : WeightedJob) (l : WeightedJobList)
    (h : RunningSum c (w :: l)) : lastSpan (w :: l) = c + weightSum (w :: l) := by
  induction l generalizing c w with
  | nil =>
    obtain ⟨h1, -⟩ := h
    simp [lastSpan, weightSum, h1]
  | cons b rest ih =>
    obtain ⟨h1, h2⟩ := h
    rw [lastSpan_cons_cons, ih _ _ h2]
    simp only [weightSum, List.map_cons, List.sum_cons]
    ring

lemma lastSpan_zero (l : WeightedJobList) (h : RunningSum 0 l) : lastSpan l = weightSum l := by
  cases l with
  | nil => simp [lastSpan, weightSum]
  | cons w rest => rw [lastSpan_of_runningSum 0 w rest h]; ring

lemma runningSum_enqueue (t : JobThread) (mw : Int) (jobs : JobList)
    (h : RunningSum 0 t.m_queuedJobs) : RunningSum 0 (t.enqueue mw jobs).m_queuedJobs := by
  rw [enqueue_queued, runningSum_append, lastSpan_zero _ h, zero_add]
  exact ⟨h, runningSum_appended _ _ _ _⟩

lemma enqueueAll_running (t : JobThread) (batches : List Batch) :
    (t.enqueueAll batches).m_runningJobs = t.m_runningJobs := by
  induction batches generalizing t with
  | nil => rfl
  | cons b rest ih =>
    simp only [JobThread.enqueueAll, List.foldl_cons] at ih ⊢
    rw [ih, enqueue_running]

lemma runningSum_enqueueAll (t : JobThread) (batches : List Batch)
    (h : RunningSum 0 t.m_queuedJobs) : RunningSum 0 (t.enqueueAll batches).m_queuedJobs := by
  induction batches generalizing t with
  | nil => exact h
  | cons b rest ih =>
    simp only [JobThread.enqueueAll, List.foldl_cons] at ih ⊢
    exact ih _ (runningSum_enqueue t b.1 b.2 h)

lemma nonneg_appended (total : ℚ) (mw : Int) (c : ℚ) (jobs : JobList) (ht : 0 < total)
    (hm : 0 ≤ mw) (hj : ∀ j ∈ jobs, 0 ≤ j.getJobWeight) :
    NonnegWeights (appended total mw c jobs) := by
  induction jobs generalizing c with
  | nil => intro w hw; simp [appended] at hw
  | cons j rest ih =>
    intro w hw
    simp only [appended, List.mem_cons] at hw
    rcases hw with rfl | hw
    · have h1 : 0 ≤ j.getJobWeight := hj j (List.mem_cons_self _ _)
      have h2 : (0 : ℚ) ≤ (mw : ℚ) := by exact_mod_cast hm
      exact mul_nonneg (div_nonneg h1 ht.le) h2
    · exact ih _ (fun j2 hj2 => hj j2 (List.mem_cons_of_mem _ hj2)) w hw

lemma nonneg_enqueue (t : JobThread) (mw : Int) (jobs : JobList)
    (h : NonnegWeights t.m_queuedJobs) (hm : 0 ≤ mw) (hj : ∀ j ∈ jobs, 0 ≤ j.getJobWeight) :
    NonnegWeights (t.enqueue mw jobs).m_queuedJobs := by
  intro w hw
  rw [enqueue_queued, List.mem_append] at hw
  rcases hw with hw | hw
  · exact h w hw
  · exact nonneg_appended _ mw _ jobs (lt_of_lt_of_le one_pos (totalJobWeight_ge jobs)) hm hj w hw

lemma nonneg_enqueueAll (t : JobThread) (batches : List Batch)
    (h : NonnegWeights t.m_queuedJobs)
    (hb : ∀ b ∈ batches, 0 ≤ b.1 ∧ ∀ j ∈ b.2, 0 ≤ j.getJobWeight) :
    NonnegWeights (t.enqueueAll batches).m_queuedJobs := by
  induction batches generalizing t with
  | nil => exact h
  | cons b rest ih =>
    simp only [JobThread.enqueueAll, List.foldl_cons] at ih ⊢
    have hb1 := hb b (List.mem_cons_self _ _)
    exact ih _ (nonneg_enqueue t b.1 b.2 h hb1.1 hb1.2)
      (fun b2 hb2 => hb b2 (List.mem_cons_of_mem _ hb2))

lemma getElem?_length_append (pre rest : WeightedJobList) (w : WeightedJob) :
    (pre ++ w :: rest)[pre.length]? = some w := by
  induction pre with
  | nil => simp
  | cons a pre ih => simpa using ih

lemma emitProgress_at (t : JobThread) (pre rest : WeightedJobList) (w : WeightedJob) (p : ℚ)
    (h : t.m_runningJobs = pre ++ w :: rest) (hi : t.m_jobIndex = pre.length) :
    t.emitProgress p
      = Event.progress ((w.cumulative + w.weight * max 0 (min 1 p)) / t.m_overallQueueWeight)
          w.job.prettyStatusMessage := by
  have hlt : t.m_jobIndex < t.m_runningJobs.length := by
    rw [h, hi]; simp
  have hget : t.m_runningJobs[t.m_jobIndex] = w := by
    have h1 : t.m_runningJobs[t.m_jobIndex]? = some w := by
      rw [h, hi]; exact getElem?_length_append pre rest w
    rw [List.getElem?_eq_getElem hlt] at h1
    exact Option.some.inj h1
  simp only [JobThread.emitProgress, dif_pos hlt, hget]

lemma emitProgress_done (t : JobThread) (p : ℚ) (hi : t.m_jobIndex = t.m_runningJobs.length) :
    t.emitProgress p = Event.progress 1 "Done" := by
  have hlt : ¬ t.m_jobIndex < t.m_runningJobs.length := by omega
  simp only [JobThread.emitProgress, dif_neg hlt]

lemma runBody_eq (s : RunState) (pre rest : WeightedJobList) (w : WeightedJob)
    (h : s.thread.m_runningJobs = pre ++ w :: rest) (hi : s.thread.m_jobIndex = pre.length) :
    runBody s w =
      { thread := { s.thread with m_jobIndex := pre.length + 1 },
        failureEncountered := s.failureEncountered || !w.job.exec.ok,
        message := if !s.failureEncountered && !w.job.exec.ok then w.job.exec.message
                   else s.message,
        details := if !s.failureEncountered && !w.job.exec.ok then w.job.exec.details
                   else s.details,
        events := s.events ++
          (if s.failureEncountered && !w.job.isEmergency then []
           else jobEvents s.thread.m_overallQueueWeight pre.length w) } := by
  have e0 := emitProgress_at s.thread pre rest w 0 h hi
  have e1 := emitProgress_at s.thread pre rest w 1 h hi
  have m0 : max (0 : ℚ) (min 1 0) = 0 := by norm_num
  have m1 : max (0 : ℚ) (min 1 1) = 1 := by norm_num
  rw [m0, mul_zero, add_zero] at e0
  rw [m1, mul_one] at e1
  obtain ⟨thread, failed, message, details, events⟩ := s
  simp only at h hi e0 e1
  cases failed <;> cases hem : w.job.isEmergency <;> cases hok : w.job.exec.ok <;>
    simp [runBody, RunState.emitProgress, RunState.emit, jobEvents, e0, e1, hi, hem, hok]

lemma foldl_runBody (rest : WeightedJobList) :
    ∀ (pre : WeightedJobList) (s : RunState), s.thread.m_runningJobs = pre ++ rest →
      s.thread.m_jobIndex = pre.length → rest.foldl runBody s = afterLoop s pre.length rest := by
  induction rest with
  | nil =>
    intro pre s _ hi
    obtain ⟨thread, failed, message, details, events⟩ := s
    simp only at hi
    cases failed <;> simp [afterLoop, loopEvents, firstFailure, ← hi]
  | cons w rest ih =>
    intro pre s h hi
    have hb := runBody_eq s pre rest w h hi
    have h2 : (runBody s w).thread.m_runningJobs = (pre ++ [w]) ++ rest := by
      rw [hb]; simp [h]
    have hi2 : (runBody s w).thread.m_jobIndex = (pre ++ [w]).length := by
      rw [hb]; simp
    rw [List.foldl_cons, ih (pre ++ [w]) (runBody s w) h2 hi2, hb]
    obtain ⟨thread, failed, message, details, events⟩ := s
    cases failed <;> cases hem : w.job.isEmergency <;> cases hok : w.job.exec.ok <;>
      simp [afterLoop, loopEvents, firstFailure, hem, hok, List.find?_cons, Nat.add_assoc,
        Nat.add_comm 1]

lemma firstFailure_none (l : WeightedJobList) (h : firstFailure l = none) :
    l.any (fun w => !w.job.exec.ok) = false := by
  simp only [firstFailure, List.find?_eq_none] at h
  rw [Bool.eq_false_iff]
  intro ha
  rw [List.any_eq_true] at ha
  obtain ⟨w, hw, hw2⟩ := ha
  exact h w hw hw2

lemma firstFailure_some (l : WeightedJobList) (w : WeightedJob) (h : firstFailure l = some w) :
    l.any (fun w => !w.job.exec.ok) = true := by
  have h2 : l.find? (fun w => !w.job.exec.ok) = some w := h
  have h3 := List.find?_some h2
  rw [List.any_eq_true]
  exact ⟨w, List.mem_of_find?_eq_some h2, h3⟩

lemma firstFailure_of_all_ok (l : WeightedJobList) (h : ∀ w ∈ l, w.job.exec.ok = true) :
    firstFailure l = none := by
  simp only [firstFailure, List.find?_eq_none]
  intro w hw
  simp [h w hw]

lemma run_events (t : JobThread) :
    t.run.events
      = loopEvents t.m_overallQueueWeight 0 false t.m_runningJobs ++ finalEvents t.m_runningJobs := by
  have h := foldl_runBody t.m_runningJobs [] { thread := { t with m_jobIndex := 0 } } rfl rfl
  simp only [JobThread.run, h]
  cases hf : firstFailure t.m_runningJobs with
  | none =>
    have ha := firstFailure_none _ hf
    have hd : ({ t with m_jobIndex := t.m_runningJobs.length } : JobThread).emitProgress 1
        = Event.progress 1 "Done" := emitProgress_done _ 1 rfl
    simp [afterLoop, ha, hf, finalEvents, RunState.emit, RunState.emitProgress, hd]
  | some w =>
    have ha := firstFailure_some _ w hf
    simp [afterLoop, ha, hf, finalEvents, RunState.emit]

lemma run_thread (t : JobThread) :
    t.run.thread = { t with m_jobIndex := t.m_runningJobs.length } := by
  have h := foldl_runBody t.m_runningJobs [] { thread := { t with m_jobIndex := 0 } } rfl rfl
  simp only [JobThread.run, h]
  cases ha : t.m_runningJobs.any (fun w => !w.job.exec.ok) <;>
    simp [ha, afterLoop, RunState.emit, RunState.emitProgress]

lemma invoked_append (a b : List Event) : invoked (a ++ b) = invoked a ++ invoked b := by
  induction a with
  | nil => rfl
  | cons e es ih => cases e <;> simp [invoked, ih]

lemma fractions_append (a b : List Event) : fractions (a ++ b) = fractions a ++ fractions b := by
  induction a with
  | nil => rfl
  | cons e es ih => cases e <;> simp [fractions, ih]

lemma failures_append (a b : List Event) : failures (a ++ b) = failures a ++ failures b := by
  induction a with
  | nil => rfl
  | cons e es ih => cases e <;> simp [failures, ih]

lemma invoked_finalEvents (l : WeightedJobList) : invoked (finalEvents l) = [] := by
  unfold finalEvents
  cases firstFailure l <;> rfl

lemma failures_loopEvents (Q : ℚ) (l : WeightedJobList) :
    ∀ (i : Nat) (f : Bool), failures (loopEvents Q i f l) = [] := by
  induction l with
  | nil => intro i f; rfl
  | cons w rest ih =>
    intro i f
    simp only [loopEvents]
    split_ifs
    · exact ih _ _
    · rw [failures_append, ih]; rfl

lemma invoked_loopEvents_failed (Q : ℚ) (l : WeightedJobList) :
    ∀ i : Nat, invoked (loopEvents Q i true l)
      = (indexed i l).filter (fun p => p.2.isEmergency) := by
  induction l with
  | nil => intro i; rfl
  | cons w rest ih =>
    intro i
    cases hem : w.job.isEmergency <;>
      simp [loopEvents, indexed, hem, ih, invoked_append, jobEvents, invoked]

lemma invoked_loopEvents (Q : ℚ) (l : WeightedJobList) :
    ∀ i : Nat, invoked (loopEvents Q i false l) = specInvokedFrom i l := by
  induction l with
  | nil => intro i; rfl
  | cons w rest ih =>
    intro i
    cases hok : w.job.exec.ok
    · simp [loopEvents, indexed, hok, invoked_append, jobEvents, invoked, specInvokedFrom,
        invoked_loopEvents_failed]
    · have h := ih (i + 1)
      simp only [specInvokedFrom] at h
      simp only [loopEvents, Bool.false_and, Bool.false_eq_true, if_false, hok, Bool.not_true,
        Bool.or_false, invoked_append, jobEvents, invoked, specInvokedFrom, indexed,
        List.takeWhile_cons, List.dropWhile_cons, if_true]
      cases hd : List.dropWhile (fun p : Nat × Job => p.2.exec.ok) (indexed (i + 1) rest) <;>
        simp [hd] at h ⊢ <;> exact h

lemma specInvokedFrom_sublist (i : Nat) (l : WeightedJobList) :
    List.Sublist (specInvokedFrom i l) (indexed i l) := by
  have h := List.takeWhile_append_dropWhile (fun p : Nat × Job => p.2.exec.ok) (indexed i l)
  simp only [specInvokedFrom]
  cases hd : List.dropWhile (fun p : Nat × Job => p.2.exec.ok) (indexed i l) with
  | nil => exact List.takeWhile_sublist _
  | cons a after =>
    rw [hd] at h
    simp only
    conv_rhs => rw [← h]
    exact List.Sublist.append (List.Sublist.refl _)
      (List.Sublist.cons₂ a (List.filter_sublist _))

lemma indexed_fst (l : WeightedJobList) :
    ∀ i : Nat, (indexed i l).map Prod.fst = List.range' i l.length := by
  induction l with
  | nil => intro i; rfl
  | cons w rest ih => intro i; simp [indexed, ih, List.range'_succ]

lemma specInvokedFrom_all_ok (i : Nat) (l : WeightedJobList)
    (h : ∀ w ∈ l, w.job.exec.ok = true) : specInvokedFrom i l = indexed i l := by
  have hall : ∀ p ∈ indexed i l, p.2.exec.ok = true := by
    induction l generalizing i with
    | nil => intro p hp; simp [indexed] at hp
    | cons w rest ih =>
      intro p hp
      simp only [indexed, List.mem_cons] at hp
      rcases hp with rfl | hp
      · exact h w (List.mem_cons_self _ _)
      · exact ih (i + 1) (fun w2 hw2 => h w2 (List.mem_cons_of_mem _ hw2)) p hp
  have h1 : List.dropWhile (fun p : Nat × Job => p.2.exec.ok) (indexed i l) = [] := by
    rw [List.dropWhile_eq_nil_iff]; exact hall
  have h2 : List.takeWhile (fun p : Nat × Job => p.2.exec.ok) (indexed i l) = indexed i l := by
    rw [List.takeWhile_eq_self_iff]; exact hall
  simp only [specInvokedFrom, h1, h2]

lemma firstFailure_split (pre post : WeightedJobList) (w : WeightedJob)
    (hpre : ∀ a ∈ pre, a.job.exec.ok = true) (hw : w.job.exec.ok = false) :
    firstFailure (pre ++ w :: post) = some w := by
  induction pre with
  | nil => simp [firstFailure, List.find?_cons, hw]
  | cons a pre ih =>
    have ha : a.job.exec.ok = true := hpre a (List.mem_cons_self _ _)
    have h := ih (fun b hb => hpre b (List.mem_cons_of_mem _ hb))
    simp only [firstFailure] at h
    simp [firstFailure, List.find?_cons, ha, h]

lemma indexed_append (pre post : WeightedJobList) :
    ∀ i : Nat, indexed i (pre ++ post) = indexed i pre ++ indexed (i + pre.length) post := by
  induction pre with
  | nil => intro i; rfl
  | cons a pre ih =>
    intro i
    simp [indexed, ih, Nat.add_assoc, Nat.add_comm 1]

lemma invoked_loopEvents_split (Q : ℚ) (pre post : WeightedJobList) (w : WeightedJob)
    (hpre : ∀ a ∈ pre, a.job.exec.ok = true) (hw : w.job.exec.ok = false) :
    ∀ i : Nat, invoked (loopEvents Q i false (pre ++ w :: post))
      = indexed i pre ++ (i + pre.length, w.job) ::
          (indexed (i + pre.length + 1) post).filter (fun p => p.2.isEmergency) := by
  induction pre with
  | nil =>
    intro i
    simp [loopEvents, hw, invoked_append, jobEvents, invoked, invoked_loopEvents_failed, indexed]
  | cons a pre ih =>
    intro i
    have ha : a.job.exec.ok = true := hpre a (List.mem_cons_self _ _)
    have h := ih (fun b hb => hpre b (List.mem_cons_of_mem _ hb)) (i + 1)
    simp [loopEvents, ha, invoked_append, jobEvents, invoked, indexed, h, Nat.add_assoc,
      Nat.add_comm 1]

lemma invoked_run (t : JobThread) : invoked t.run.events = specInvoked t.m_runningJobs := by
  rw [run_events, invoked_append, invoked_finalEvents, List.append_nil, invoked_loopEvents]
  rfl

lemma failures_run (t : JobThread) : failures t.run.events = failures (finalEvents t.m_runningJobs) := by
  rw [run_events, failures_append, failures_loopEvents, List.nil_append]

lemma observed_append (a b : List Event) : observed (a ++ b) = observed a ++ observed b := by
  induction a with
  | nil => rfl
  | cons e es ih => cases e <;> simp [observed, ih]

lemma foldl_deliver (es : List Event) :
    ∀ q : JobQueue, (es.foldl JobQueue.deliver q).signals = q.signals ++ observed es := by
  induction es with
  | nil => intro q; simp [observed]
  | cons e es ih =>
    intro q
    cases e <;> simp [JobQueue.deliver, JobQueue.finish, observed, ih]

lemma foldl_deliver_finished (es : List Event) :
    ∀ q : JobQueue, (es.foldl JobQueue.deliver q).m_finished = (q.m_finished || es.contains Event.finish) := by
  induction es with
  | nil => intro q; simp
  | cons e es ih =>
    intro q
    cases e <;> simp [JobQueue.deliver, JobQueue.finish, ih]

lemma observed_loopEvents (Q : ℚ) (l : WeightedJobList) :
    ∀ (i : Nat) (f : Bool), ∀ x ∈ observed (loopEvents Q i f l), x.isProgress = true := by
  induction l with
  | nil => intro i f x hx; simp [loopEvents, observed] at hx
  | cons w rest ih =>
    intro i f x hx
    simp only [loopEvents] at hx
    split_ifs at hx
    · exact ih _ _ x hx
    · rw [observed_append, List.mem_append] at hx
      rcases hx with hx | hx
      · simp only [jobEvents, observed, List.mem_cons, List.mem_nil_iff, or_false] at hx
        rcases hx with rfl | rfl <;> rfl
      · exact ih _ _ x hx

lemma runThread_signals (q : JobQueue) :
    q.runThread.signals = q.signals
      ++ observed (loopEvents q.m_thread.m_overallQueueWeight 0 false q.m_thread.m_runningJobs)
      ++ observed (finalEvents q.m_thread.m_runningJobs) := by
  simp only [JobQueue.runThread, foldl_deliver, run_events, observed_append, List.append_assoc]

lemma any_invoked_loopEvents (Q : ℚ) (l : WeightedJobList) :
    ∀ i : Nat, (invoked (loopEvents Q i false l)).any (fun p => !p.2.exec.ok)
      = l.any (fun w => !w.job.exec.ok) := by
  induction l with
  | nil => intro i; rfl
  | cons w rest ih =>
    intro i
    cases hok : w.job.exec.ok <;>
      simp [loopEvents, hok, invoked_append, jobEvents, invoked, ih]

lemma any_invoked_run (t : JobThread) :
    (invoked t.run.events).any (fun p => !p.2.exec.ok)
      = t.m_runningJobs.any (fun w => !w.job.exec.ok) := by
  rw [run_events, invoked_append, invoked_finalEvents, List.append_nil, any_invoked_loopEvents]

lemma firstFailure_none_of_invoked (t : JobThread)
    (h : ∀ p ∈ invoked t.run.events, p.2.exec.ok = true) : firstFailure t.m_runningJobs = none := by
  cases hf : firstFailure t.m_runningJobs with
  | none => rfl
  | some w =>
    have ha := firstFailure_some _ w hf
    rw [← any_invoked_run, List.any_eq_true] at ha
    obtain ⟨p, hp, hp2⟩ := ha
    simp [h p hp] at hp2

lemma runningSum_getElem (l : WeightedJobList) :
    ∀ (c : ℚ) (i : Nat) (hi : i < l.length), RunningSum c l →
      l[i].cumulative = c + weightSum (l.take i) := by
  induction l with
  | nil => intro c i hi; simp at hi
  | cons w rest ih =>
    intro c i hi h
    obtain ⟨h1, h2⟩ := h
    cases i with
    | zero => simp [weightSum, h1]
    | succ n =>
      have hn : n < rest.length := by simpa using hi
      have h3 := ih (c + w.weight) n hn h2
      simp only [weightSum] at h3
      simp only [List.getElem_cons_succ, h3, weightSum, List.take_succ_cons, List.map_cons,
        List.sum_cons]
      ring

lemma runningSum_pairwise (l : WeightedJobList) :
    ∀ c : ℚ, RunningSum c l → NonnegWeights l →
      List.Pairwise (fun a b => a ≤ b) (l.map WeightedJob.cumulative)
      ∧ ∀ x ∈ l.map WeightedJob.cumulative, c ≤ x := by
  induction l with
  | nil => intro c _ _; simp
  | cons w rest ih =>
    intro c h hn
    obtain ⟨h1, h2⟩ := h
    have hw : 0 ≤ w.weight := hn w (List.mem_cons_self _ _)
    obtain ⟨ih1, ih2⟩ := ih (c + w.weight) h2 (fun a ha => hn a (List.mem_cons_of_mem _ ha))
    refine ⟨?_, ?_⟩
    · rw [List.map_cons, List.pairwise_cons]
      refine ⟨fun x hx => ?_, ih1⟩
      have := ih2 x hx
      linarith
    · intro x hx
      rw [List.map_cons, List.mem_cons] at hx
      rcases hx with rfl | hx
      · exact h1.ge
      · have := ih2 x hx
        linarith

lemma cumulativeInvariant_of (l : WeightedJobList) (h : RunningSum 0 l) (hn : NonnegWeights l) :
    CumulativeInvariant l := by
  refine ⟨fun i hi => ?_, (runningSum_pairwise l 0 h hn).1⟩
  rw [runningSum_getElem l 0 i hi h, zero_add]

lemma weightSum_nonneg (l : WeightedJobList) (hn : NonnegWeights l) : 0 ≤ weightSum l := by
  induction l with
  | nil => simp [weightSum]
  | cons w rest ih =>
    have hw : 0 ≤ w.weight := hn w (List.mem_cons_self _ _)
    have := ih (fun a ha => hn a (List.mem_cons_of_mem _ ha))
    simp only [weightSum, List.map_cons, List.sum_cons] at this ⊢
    linarith

lemma fractions_loopEvents (Q : ℚ) (hQ : 0 < Q) (l : WeightedJobList) :
    ∀ (c : ℚ) (i : Nat) (f : Bool), RunningSum c l → NonnegWeights l →
      List.Pairwise (fun a b => a ≤ b) (fractions (loopEvents Q i f l))
      ∧ ∀ x ∈ fractions (loopEvents Q i f l), c / Q ≤ x ∧ x ≤ (c + weightSum l) / Q := by
  induction l with
  | nil => intro c i f _ _; simp [loopEvents, fractions]
  | cons w rest ih =>
    intro c i f h hn
    obtain ⟨h1, h2⟩ := h
    have hw : 0 ≤ w.weight := hn w (List.mem_cons_self _ _)
    have hrest : NonnegWeights rest := fun a ha => hn a (List.mem_cons_of_mem _ ha)
    have hsum : weightSum (w :: rest) = w.weight + weightSum rest := by
      simp [weightSum]
    have hs0 : 0 ≤ weightSum rest := weightSum_nonneg rest hrest
    have hstep : c / Q ≤ (c + w.weight) / Q := by
      rw [div_le_div_iff_of_pos_right hQ]; linarith
    have htop : (c + w.weight) / Q ≤ (c + weightSum (w :: rest)) / Q := by
      rw [div_le_div_iff_of_pos_right hQ, hsum]; linarith
    have hbound : ∀ (j : Nat) (g : Bool), ∀ x ∈ fractions (loopEvents Q j g rest),
        (c + w.weight) / Q ≤ x ∧ x ≤ (c + weightSum (w :: rest)) / Q := by
      intro j g x hx
      have := (ih (c + w.weight) j g h2 hrest).2 x hx
      rw [hsum, ← add_assoc]
      exact this
    simp only [loopEvents]
    split_ifs
    · refine ⟨(ih (c + w.weight) (i + 1) f h2 hrest).1, fun x hx => ?_⟩
      have := hbound _ _ x hx
      exact ⟨le_trans hstep this.1, this.2⟩
    · rw [fractions_append]
      simp only [jobEvents, fractions, h1, List.cons_append, List.nil_append,
        List.pairwise_cons, List.mem_cons]
      refine ⟨⟨?_, ?_, (ih (c + w.weight) (i + 1) _ h2 hrest).1⟩, ?_⟩
      · intro x hx
        rcases hx with rfl | hx
        · exact hstep
        · exact le_trans hstep (hbound _ _ x hx).1
      · intro x hx
        exact (hbound _ _ x hx).1
      · intro x hx
        rcases hx with rfl | rfl | hx
        · exact ⟨le_refl _, le_trans hstep htop⟩
        · exact ⟨hstep, htop⟩
        · have := hbound _ _ x hx
          exact ⟨le_trans hstep this.1, this.2⟩

lemma fractions_finalEvents (l : WeightedJobList) :
    fractions (finalEvents l) = [] ∨ fractions (finalEvents l) = [1] := by
  unfold finalEvents
  cases firstFailure l
  · right; rfl
  · left; rfl

lemma finalize_fresh (t : JobThread) (h : t.m_runningJobs = []) :
    t.finalize = some t.finalizeBody := by
  simp [JobThread.finalize, h]

lemma finalizeBody_weight (t : JobThread) :
    t.finalizeBody.m_overallQueueWeight = max 1 (lastSpan t.m_queuedJobs) := by
  simp only [JobThread.finalizeBody]
  split_ifs with h
  · exact (max_eq_left h.le).symm
  · exact (max_eq_right (not_lt.mp h)).symm

lemma lastSpan_concat (init : WeightedJobList) (w : WeightedJob) :
    lastSpan (init ++ [w]) = w.cumulative + w.weight := by
  simp [lastSpan]

/-! ## The claims -/

/-- C1: the jobs that `JobThread::run` invokes are, in list order, every job up to and
including the first one that fails, followed by exactly the emergency jobs among the jobs
after it; no position is invoked twice, and when no job fails every job is invoked once in
list order. -/
theorem run_invokes_up_to_failure_then_emergency (t : JobThread) :
    invoked t.run.events = specInvoked t.m_runningJobs
    ∧ (∀ (pre post : WeightedJobList) (w : WeightedJob),
        t.m_runningJobs = pre ++ w :: post → (∀ a ∈ pre, a.job.exec.ok = true) →
        w.job.exec.ok = false →
        invoked t.run.events
          = indexed 0 pre ++ (pre.length, w.job) ::
              (indexed (pre.length + 1) post).filter (fun p => p.2.isEmergency))
    ∧ ((∀ w ∈ t.m_runningJobs, w.job.exec.ok = true) →
        invoked t.run.events = indexed 0 t.m_runningJobs)
    ∧ List.Sublist (invoked t.run.events) (indexed 0 t.m_runningJobs)
    ∧ ((invoked t.run.events).map Prod.fst).Nodup := by
  have hsub : List.Sublist (invoked t.run.events) (indexed 0 t.m_runningJobs) := by
    rw [invoked_run]; exact specInvokedFrom_sublist 0 _
  refine ⟨invoked_run t, ?_, ?_, hsub, ?_⟩
  · intro pre post w h hpre hw
    rw [run_events, invoked_append, invoked_finalEvents, List.append_nil, h,
      invoked_loopEvents_split _ pre post w hpre hw 0]
    simp
  · intro h
    rw [invoked_run]; exact specInvokedFrom_all_ok 0 _ h
  · have h2 := List.Sublist.map Prod.fst hsub
    rw [indexed_fst] at h2
    exact List.Nodup.sublist h2 (List.nodup_range' _ _)

/-- Witness for C1 on `sampleThread`: jobs 0 and 1 run, job 2 is skipped, the emergency
job 3 runs. -/
theorem run_invokes_up_to_failure_then_emergency_witness :
    invoked sampleThread.run.events
      = [(0, mkJob 1 false true "a"), (1, mkJob 1 false false "b"), (3, mkJob 1 true false "d")] :=
  (run_invokes_up_to_failure_then_emergency sampleThread).2.1
    [{ cumulative := 0, weight := 1, job := mkJob 1 false true "a" }]
    [{ cumulative := 2, weight := 1, job := mkJob 1 false true "c" },
     { cumulative := 3, weight := 1, job := mkJob 1 true false "d" }]
    { cumulative := 1, weight := 1, job := mkJob 1 false false "b" }
    rfl (by simp [mkJob]) rfl

/-- C2: when a job fails, the single `failed` invocation of `JobThread::run` carries the
message and details of the first failing job in list order, whatever the later jobs return. -/
theorem failed_carries_first_failure (t : JobThread) (pre post : WeightedJobList)
    (w : WeightedJob) (h : t.m_runningJobs = pre ++ w :: post)
    (hpre : ∀ a ∈ pre, a.job.exec.ok = true) (hw : w.job.exec.ok = false) :
    failures t.run.events = [(w.job.exec.message, w.job.exec.details)] := by
  rw [failures_run, h]
  simp [finalEvents, firstFailure_split pre post w hpre hw, failures]

/-- Witness for C2 on `sampleThread`: job 1 fails first, the failing emergency job 3 does
not replace its message. -/
theorem failed_carries_first_failure_witness :
    failures sampleThread.run.events = [("b", "b-details")] :=
  failed_carries_first_failure sampleThread
    [{ cumulative := 0, weight := 1, job := mkJob 1 false true "a" }]
    [{ cumulative := 2, weight := 1, job := mkJob 1 false true "c" },
     { cumulative := 3, weight := 1, job := mkJob 1 true false "d" }]
    { cumulative := 1, weight := 1, job := mkJob 1 false false "b" }
    rfl (by simp [mkJob]) rfl

/-- C3 as stated fails: on `sampleThreadFailing` an invoked job fails and the observers
receive `failed` and then also `finished`. -/
theorem failed_run_also_emits_finished :
    (∃ p ∈ invoked sampleThreadFailing.run.events, p.2.exec.ok = false)
    ∧ (JobQueue.runThread ⟨sampleThreadFailing, false, []⟩).signals
        = [Signal.progress 0 "a", Signal.progress (1 / 2) "a", Signal.failed "a" "a-details",
           Signal.finished] := by
  decide!

/-- C3 amended: the observers receive `finished` exactly once in every run, as the last
signal; `failed` is received exactly once when some invoked job failed and not at all
otherwise.  The queue ends with `m_finished` set. -/
theorem finished_once_last_failed_once_iff_failure (t : JobThread) (fin : Bool) :
    (JobQueue.runThread ⟨t, fin, []⟩).signals.count Signal.finished = 1
    ∧ (JobQueue.runThread ⟨t, fin, []⟩).signals.getLast? = some Signal.finished
    ∧ ((JobQueue.runThread ⟨t, fin, []⟩).signals.filter Signal.isFailed).length
        = (if (invoked t.run.events).any (fun p => !p.2.exec.ok) then 1 else 0)
    ∧ (JobQueue.runThread ⟨t, fin, []⟩).m_finished = true := by
  have hp := observed_loopEvents t.m_overallQueueWeight t.m_runningJobs 0 false
  have hc : (observed (loopEvents t.m_overallQueueWeight 0 false t.m_runningJobs)).count
      Signal.finished = 0 := by
    rw [List.count_eq_zero]
    intro hmem
    have := hp _ hmem
    simp [Signal.isProgress] at this
  have hf : (observed (loopEvents t.m_overallQueueWeight 0 false t.m_runningJobs)).filter
      Signal.isFailed = [] := by
    rw [List.filter_eq_nil_iff]
    intro x hx
    have := hp x hx
    cases x <;> simp [Signal.isProgress, Signal.isFailed] at this ⊢
  have hfin : (JobQueue.runThread ⟨t, fin, []⟩).m_finished = true := by
    simp only [JobQueue.runThread, foldl_deliver_finished, run_events]
    cases hff : firstFailure t.m_runningJobs <;> simp [finalEvents, hff]
  rw [runThread_signals, any_invoked_run]
  simp only [List.nil_append, List.count_append, List.filter_append, hc, hf, List.length_append,
    List.length_nil, zero_add]
  cases hff : firstFailure t.m_runningJobs with
  | none =>
    have ha := firstFailure_none _ hff
    simp [finalEvents, hff, observed, ha, Signal.isFailed, hfin]
  | some w =>
    have ha := firstFailure_some _ w hff
    simp [finalEvents, hff, observed, ha, Signal.isFailed, hfin]

/-- C7 as stated fails: on `sampleThreadFailing` the first job fails, the second is skipped,
and the last fraction emitted is one half. -/
theorem failed_run_ends_below_one :
    (∃ p ∈ invoked sampleThreadFailing.run.events, p.2.exec.ok = false)
    ∧ fractions sampleThreadFailing.run.events = [0, 1 / 2]
    ∧ (fractions sampleThreadFailing.run.events).getLast? ≠ some 1 := by
  decide!

/-- C7 amended: when no invoked job fails, the last progress fraction that
`JobThread::run` emits is exactly 1. -/
theorem successful_run_ends_at_one (t : JobThread)
    (h : ∀ p ∈ invoked t.run.events, p.2.exec.ok = true) :
    (fractions t.run.events).getLast? = some 1 := by
  have hf := firstFailure_none_of_invoked t h
  rw [run_events, fractions_append]
  simp [finalEvents, hf, fractions]

/-- Witness for C7 amended on `sampleThreadOk`. -/
theorem successful_run_ends_at_one_witness :
    (fractions sampleThreadOk.run.events).getLast? = some 1 :=
  successful_run_ends_at_one sampleThreadOk (by decide!)

/-- C4 as stated fails: a single job of weight one half has a positive total, yet with
module weight 10 the appended weights sum to 5. -/
theorem fractional_total_is_not_rescaled :
    (∀ j ∈ [mkJob (1 / 2) false true "a"], 0 ≤ j.getJobWeight)
    ∧ 0 < rawWeightSum [mkJob (1 / 2) false true "a"]
    ∧ weightSum ((({} : JobThread).enqueue 10 [mkJob (1 / 2) false true "a"]).m_queuedJobs.drop
        ({} : JobThread).m_queuedJobs.length) = 5
    ∧ weightSum ((({} : JobThread).enqueue 10 [mkJob (1 / 2) false true "a"]).m_queuedJobs.drop
        ({} : JobThread).m_queuedJobs.length) ≠ ((10 : Int) : ℚ) := by
  decide!

/-- C4 amended: for a batch whose total raw weight is at least 1, `JobThread::enqueue`
leaves the earlier entries as they are and the `weight` fields of the entries it appends
sum to the module weight. -/
theorem batch_weights_sum_to_module_weight (t : JobThread) (moduleWeight : Int)
    (jobs : JobList) (h : 1 ≤ rawWeightSum jobs) :
    (t.enqueue moduleWeight jobs).m_queuedJobs.take t.m_queuedJobs.length = t.m_queuedJobs
    ∧ weightSum ((t.enqueue moduleWeight jobs).m_queuedJobs.drop t.m_queuedJobs.length)
        = (moduleWeight : ℚ) := by
  have htot : totalJobWeight jobs = rawWeightSum jobs := by
    rw [totalJobWeight_eq, if_neg (not_lt.mpr h)]
  have hpos : rawWeightSum jobs ≠ 0 := by linarith
  rw [enqueue_queued, List.take_left, List.drop_left, weightSum_appended, htot,
    div_self hpos, one_mul]
  exact ⟨rfl, rfl⟩

/-- Witness for C4 amended: weights 1, 1, 2 with module weight 10. -/
theorem batch_weights_sum_to_module_weight_witness :
    weightSum ((({} : JobThread).enqueue 10 scenarioJobs).m_queuedJobs.drop
      ({} : JobThread).m_queuedJobs.length) = ((10 : Int) : ℚ) :=
  (batch_weights_sum_to_module_weight {} 10 scenarioJobs (by decide!)).2

/-- C5: after any sequence of batches with non-negative job and module weights has been
enqueued on a fresh thread, every `cumulative` of the pending list is the sum of the weights
before it and `cumulative` is non-decreasing; promotion succeeds and the active list is that
same list, so the invariant holds for it too. -/
theorem cumulative_invariant_after_enqueue (batches : List Batch)
    (h : ∀ b ∈ batches, 0 ≤ b.1 ∧ ∀ j ∈ b.2, 0 ≤ j.getJobWeight) :
    CumulativeInvariant (({} : JobThread).enqueueAll batches).m_queuedJobs
    ∧ ∃ t : JobThread, (({} : JobThread).enqueueAll batches).finalize = some t
        ∧ t.m_runningJobs = (({} : JobThread).enqueueAll batches).m_queuedJobs
        ∧ CumulativeInvariant t.m_runningJobs := by
  have hr : RunningSum 0 (({} : JobThread).enqueueAll batches).m_queuedJobs :=
    runningSum_enqueueAll {} batches trivial
  have hn : NonnegWeights (({} : JobThread).enqueueAll batches).m_queuedJobs :=
    nonneg_enqueueAll {} batches (fun w hw => by simp at hw) h
  have hinv := cumulativeInvariant_of _ hr hn
  have hrun : (({} : JobThread).enqueueAll batches).m_runningJobs = [] := by
    rw [enqueueAll_running]
  exact ⟨hinv, _, finalize_fresh _ hrun, rfl, hinv⟩

/-- Witness for C5 on `sampleBatches`. -/
theorem cumulative_invariant_after_enqueue_witness :
    CumulativeInvariant (({} : JobThread).enqueueAll sampleBatches).m_queuedJobs :=
  (cumulative_invariant_after_enqueue sampleBatches (by decide!)).1

/-- C6: for an active list built by enqueueing batches with non-negative job and module
weights on a fresh thread and promoting it, the progress fractions that `JobThread::run`
emits (0% and 100% of every invoked job and the final emission, in order) never decrease,
whatever the jobs return. -/
theorem progress_is_nondecreasing (batches : List Batch)
    (h : ∀ b ∈ batches, 0 ≤ b.1 ∧ ∀ j ∈ b.2, 0 ≤ j.getJobWeight) :
    ∃ t : JobThread, (({} : JobThread).enqueueAll batches).finalize = some t
      ∧ List.Pairwise (fun a b => a ≤ b) (fractions t.run.events) := by
  have hr : RunningSum 0 (({} : JobThread).enqueueAll batches).m_queuedJobs :=
    runningSum_enqueueAll {} batches trivial
  have hn : NonnegWeights (({} : JobThread).enqueueAll batches).m_queuedJobs :=
    nonneg_enqueueAll {} batches (fun w hw => by simp at hw) h
  have hrun : (({} : JobThread).enqueueAll batches).m_runningJobs = [] := by
    rw [enqueueAll_running]
  refine ⟨_, finalize_fresh _ hrun, ?_⟩
  have hq := finalizeBody_weight (({} : JobThread).enqueueAll batches)
  rw [lastSpan_zero _ hr] at hq
  have hl : (({} : JobThread).enqueueAll batches).finalizeBody.m_runningJobs
      = (({} : JobThread).enqueueAll batches).m_queuedJobs := rfl
  have hQ : 0 < (({} : JobThread).enqueueAll batches).finalizeBody.m_overallQueueWeight := by
    rw [hq]; exact lt_of_lt_of_le one_pos (le_max_left _ _)
  obtain ⟨hp, hb⟩ := fractions_loopEvents _ hQ _ 0 0 false hr hn
  rw [run_events, fractions_append, hl, List.pairwise_append]
  have hfe := fractions_finalEvents (({} : JobThread).enqueueAll batches).m_queuedJobs
  refine ⟨hp, ?_, ?_⟩
  · rcases hfe with hfe | hfe <;> simp [hfe]
  · intro x hx y hy
    have hy1 : y = 1 := by
      rcases hfe with hfe | hfe
      · simp [hfe] at hy
      · simpa [hfe] using hy
    have hx2 := (hb x hx).2
    rw [zero_add] at hx2
    rw [hy1]
    refine le_trans hx2 ?_
    rw [div_le_one hQ, hq]
    exact le_max_right _ _

/-- Witness for C6 on `sampleBatches`, where a job fails and an emergency job follows. -/
theorem progress_is_nondecreasing_witness :
    ∃ t : JobThread, (({} : JobThread).enqueueAll sampleBatches).finalize = some t
      ∧ List.Pairwise (fun a b => a ≤ b) (fractions t.run.events) :=
  progress_is_nondecreasing sampleBatches (by decide!)

/-- C8: the body of `finalize` sets the overall queue weight to the larger of 1 and the span
of the pending list it promotes; on a thread whose active list is empty promotion succeeds,
and the overall queue weight is then the larger of 1 and the span of the promoted list (0
when it is empty, `cumulative + weight` of its last entry otherwise), hence at least 1.  A single job of
weight 0 enqueued with module weight 5 gets contribution 0 and overall queue weight 1. -/
theorem overall_weight_is_floored_span (active pending : WeightedJobList) (index : Nat)
    (old : ℚ) :
    (JobThread.mk active pending index old).finalizeBody.m_overallQueueWeight
      = max 1 (lastSpan pending)
    ∧ (∃ t : JobThread, (JobThread.mk [] pending index old).finalize = some t
      ∧ t.m_runningJobs = pending
      ∧ t.m_overallQueueWeight = max 1 (lastSpan pending)
      ∧ 1 ≤ t.m_overallQueueWeight
      ∧ (pending = [] → t.m_overallQueueWeight = 1)
      ∧ (∀ (init : WeightedJobList) (w : WeightedJob), pending = init ++ [w] →
          t.m_overallQueueWeight = max 1 (w.cumulative + w.weight)))
    ∧ (({} : JobThread).enqueue 5 [mkJob 0 false true "a"]).finalize
        = some { m_runningJobs := [{ cumulative := 0, weight := 0, job := mkJob 0 false true "a" }],
                 m_queuedJobs := [], m_jobIndex := 0, m_overallQueueWeight := 1 } := by
  refine ⟨finalizeBody_weight _, ⟨_, finalize_fresh _ rfl, rfl, finalizeBody_weight _, ?_, ?_, ?_⟩,
    by decide!⟩
  · rw [finalizeBody_weight]; exact le_max_left _ _
  · intro hp
    rw [finalizeBody_weight]
    simp [hp, lastSpan]
  · intro init w hp
    rw [finalizeBody_weight]
    simp only [hp, lastSpan_concat]

/-- Witness for C8: a pending list of one entry with span 3. -/
theorem overall_weight_is_floored_span_witness :
    ∃ t : JobThread,
      (JobThread.mk [] [{ cumulative := 1, weight := 2, job := mkJob 1 false true "a" }] 0 0).finalize
        = some t
      ∧ t.m_overallQueueWeight = max 1 (1 + 2) := by
  obtain ⟨t, h1, -, -, -, -, h2⟩ := (overall_weight_is_floored_span []
    [{ cumulative := 1, weight := 2, job := mkJob 1 false true "a" }] 0 0).2.1
  exact ⟨t, h1, h2 [] _ rfl⟩

/-- C9 as stated fails: for weights 1, 1, 2 and module weight 10 the contributions and
cumulatives are as stated, but the span and the overall queue weight are 10, not 7.5, and the
progress at index 1 with fraction one half is 3/8, not one half. -/
theorem scenario_span_is_not_seven_and_a_half :
    ¬ (scenarioThread.m_runningJobs.map WeightedJob.weight = [5 / 2, 5 / 2, 5]
        ∧ scenarioThread.m_runningJobs.map WeightedJob.cumulative = [0, 5 / 2, 5]
        ∧ lastSpan scenarioThread.m_runningJobs = 15 / 2
        ∧ scenarioThread.m_overallQueueWeight = 15 / 2
        ∧ fractions [({ scenarioThread with m_jobIndex := 1 } : JobThread).emitProgress (1 / 2)]
            = [1 / 2]) := by
  decide!

/-- C9 amended: for weights 1, 1, 2 and module weight 10, enqueueing on a fresh thread and
promoting gives contributions 2.5, 2.5, 5 and cumulatives 0, 2.5, 5, a span and an overall
queue weight of 10, and `emitProgress` at index 1 with fraction one half reports 3/8. -/
theorem scenario_values :
    (({} : JobThread).enqueue 10 scenarioJobs).finalize = some scenarioThread
    ∧ scenarioThread.m_runningJobs.map WeightedJob.weight = [5 / 2, 5 / 2, 5]
    ∧ scenarioThread.m_runningJobs.map WeightedJob.cumulative = [0, 5 / 2, 5]
    ∧ lastSpan scenarioThread.m_runningJobs = 10
    ∧ scenarioThread.m_overallQueueWeight = 10
    ∧ ({ scenarioThread with m_jobIndex := 1 } : JobThread).emitProgress (1 / 2)
        = Event.progress (3 / 8) "b" := by
  decide!

/-- C10 fails on the code: `run` never empties the active list, so at the second start the
active list still holds the first job, the assertion of `finalize` is violated, and with the
assertion compiled out the swap leaves the first job in the pending list. -/
theorem second_start_violates_assertion :
    rearmedQueue.map (fun q => q.m_thread.m_runningJobs.map (fun w => w.job.prettyName))
      = some ["a"]
    ∧ rearmedQueue.map (fun q => q.m_thread.m_runningJobs.isEmpty) = some false
    ∧ rearmedQueue.map JobQueue.start = some none
    ∧ rearmedQueue.map
        (fun q => q.m_thread.finalizeBody.m_runningJobs.map (fun w => w.job.prettyName))
      = some ["b"]
    ∧ rearmedQueue.map
        (fun q => q.m_thread.finalizeBody.m_queuedJobs.map (fun w => w.job.prettyName))
      = some ["a"] := by
  decide!

end Calamares
